import Mathlib

/-!
Verification development for the data-access core of an LLM chat-agent
backend: a streaming relational-query layer, a compressing pipelined
cache layer, and a token-budget-aware conversation-memory manager.

Each definition is a shallow embedding of one Python function from the
repository, named after it.  External libraries (PostgreSQL cursors,
Redis, zlib, json) are modelled at the granularity the embedded code
relies on; each such modelling choice is documented at the definition.
-/

/-! ## Token counter (`app/utils/tokenization.py`, `get_token_length`)

The fallback path of `get_token_length` (the code run when the exact
subword tokenizer `tiktoken` is unavailable): `if not text: return 0`
then `return len(text) // 4 + 1`.  Python `len` on `str` counts
characters and `//` is floor division. -/
def getTokenLength (text : String) : Nat :=
  if text = "" then 0 else text.length / 4 + 1

/-! ## Chat messages

`langchain` messages: `HumanMessage`, `AIMessage`, and other
`BaseMessage` kinds (grouped here as `system`), each carrying a string
content. -/

inductive ChatMsg where
  | human (content : String)
  | ai (content : String)
  | system (content : String)
deriving DecidableEq, Repr

def ChatMsg.content : ChatMsg → String
  | .human c => c
  | .ai c => c
  | .system c => c

/-- Whether a message is a `HumanMessage` or an `AIMessage`
(Python `isinstance(m, (HumanMessage, AIMessage))`). -/
def ChatMsg.isConv : ChatMsg → Bool
  | .human _ => true
  | .ai _ => true
  | .system _ => false

/-! ## Message ingestion (`app/services/chat_agent/meta_agent.py`,
`_process_messages`)

The while-loop over `messages`: a `HumanMessage` immediately followed
by an `AIMessage` is recorded as the pair (human content, ai content)
and both are consumed; any other message is recorded as
(its content, "") and one message is consumed.  Each recorded pair is
one `memory.save_context(inputs, outputs)` call; the function's
observable effect is the ordered list of recorded (input, output)
pairs. -/
def processMessages : List ChatMsg → List (String × String)
  | .human c :: .ai c' :: rest => (c, c') :: processMessages rest
  | m :: rest => (m.content, "") :: processMessages rest
  | [] => []

/-! `app/services/memory/optimized_memory.py`, `create_optimized_memory`:
the initialization loop builds `pending_operations` with the same
policy, written slightly differently: on a `HumanMessage` it looks at
the next message and pairs when that one is an `AIMessage`, otherwise
records `(content, "")`; any non-human message is recorded as
`(content, "")`. -/
def createOptimizedPairs : List ChatMsg → List (String × String)
  | [] => []
  | .human c :: .ai c' :: rest' => (c, c') :: createOptimizedPairs rest'
  | .human c :: rest => (c, "") :: createOptimizedPairs rest
  | m :: rest => (m.content, "") :: createOptimizedPairs rest

/-! ## Server-side cursor streaming (`app/db/asyncpg_cursor.py`)

`server_cursor` declares a named cursor for the query inside one
transaction and repeatedly runs `FETCH batch_size FROM cursor`,
yielding each non-empty batch and stopping at the first empty batch.
The query's result set is modelled as the ordered list `rows`; a
`FETCH n` returns the next `min n remaining` rows (for `n = 0`,
PostgreSQL returns no rows, so the loop stops immediately). -/
def serverCursorAux : Nat → Nat → List ρ → List (List ρ)
  | 0, _, _ => []
  | fuel + 1, b, rows =>
      if (rows.take b).isEmpty then []
      else rows.take b :: serverCursorAux fuel b (rows.drop b)

def serverCursorBatches (batchSize : Nat) (rows : List ρ) : List (List ρ) :=
  serverCursorAux rows.length batchSize rows

/-- `fetch_large_dataset` iterates the batches of `server_cursor` and
yields each row, converted with `dict(row)` and the optional
`transform_func`.  The dict conversion is the identity on the
modelled row values; `transform_func` is `tf`. -/
def fetch_large_dataset (batchSize : Nat) (tf : ρ → τ) (rows : List ρ) : List τ :=
  ((serverCursorBatches batchSize rows).flatten).map tf

/-- `app/db/asyncpg_pool.py`, `PgResult`: `count` plus the rows as
dicts. -/
structure PgResult (ρ : Type u) where
  count : Nat
  rows : List ρ
deriving DecidableEq, Repr

/-- `PgResult.from_records`. -/
def PgResult.from_records (records : List ρ) : PgResult ρ :=
  ⟨records.length, records⟩

/-- `app/db/asyncpg_service.py`, `PostgresService.fetch`: a single
non-streamed fetch returns every row of the query in order. -/
def PostgresService.fetch (rows : List ρ) : PgResult ρ :=
  PgResult.from_records rows

/-! ## Batched bulk execution (`app/db/asyncpg_cursor.py`,
`execute_in_batches`)

`items` is cut into slices `items[i:i+batch_size]` for
`i = 0, batch_size, 2*batch_size, ...`; each slice runs inside its own
transaction (`async with conn.transaction()`), executing the statement
once per item; after each successful batch the optional callback is
invoked with `(processed_items, total_items)` where `processed_items`
was already advanced past the batch.  A statement failure rolls the
current batch's transaction back and propagates.  Python
`range(0, total, 0)` raises `ValueError` before any work.

The statement's effect on the database is the external SQL semantics,
modelled by `exec : σ → α → Option σ` (`none` = statement failure). -/

inductive BatchOutcome where
  | ok (n : Nat)
  | sqlError
  | valueError
deriving DecidableEq, Repr

/-- One transaction over a batch: execute the items in order; any
failure aborts the whole transaction (the caller keeps the
pre-transaction state). -/
def runBatch (exec : σ → α → Option σ) : σ → List α → Option σ
  | db, [] => some db
  | db, it :: rest =>
      match exec db it with
      | none => none
      | some db' => runBatch exec db' rest

/-- The batch slicing `items[i:i+batch_size]` of the `for` loop. -/
def toBatchesAux : Nat → Nat → List α → List (List α)
  | 0, _, _ => []
  | fuel + 1, b, items =>
      if (items.take b).isEmpty then []
      else items.take b :: toBatchesAux fuel b (items.drop b)

def toBatches (batchSize : Nat) (items : List α) : List (List α) :=
  toBatchesAux items.length batchSize items

/-- The loop body of `execute_in_batches` over the batch list,
returning the final database, the ordered callback invocations
`(processed-so-far, total)`, and the outcome. -/
def execBatchesGo (exec : σ → α → Option σ) (total : Nat) :
    σ → Nat → List (List α) → σ × List (Nat × Nat) × BatchOutcome
  | db, processed, [] => (db, [], .ok processed)
  | db, processed, b :: bs =>
      let processed' := processed + b.length
      match runBatch exec db b with
      | none => (db, [], .sqlError)
      | some db' =>
          let r := execBatchesGo exec total db' processed' bs
          (r.1, (processed', total) :: r.2.1, r.2.2)

/-- `execute_in_batches`. -/
def execute_in_batches (exec : σ → α → Option σ) (db : σ)
    (items : List α) (batchSize : Nat) : σ × List (Nat × Nat) × BatchOutcome :=
  if batchSize = 0 then (db, [], .valueError)
  else execBatchesGo exec items.length db 0 (toBatches batchSize items)

/-- The cumulative callback trace for a batch list: after each batch,
the count of items processed so far paired with the total. -/
def cumTrace (total : Nat) : Nat → List (List α) → List (Nat × Nat)
  | _, [] => []
  | acc, b :: bs => (acc + b.length, total) :: cumTrace total (acc + b.length) bs

/-! ## Dynamic memory reduction
(`app/services/chat_agent/helpers/memory_optimizer.py`,
`dynamic_memory_reduction`)

The conversation history is `memory.chat_memory.messages`; the
function returns the token difference and replaces the history, so it
is modelled as `history -> (tokens_saved, new history)`.  Python float
arithmetic on the threshold and sample rate is modelled with exact
rationals. -/

/-- Total token cost of a history:
`sum(get_token_length(msg.content) for msg in messages)`. -/
def tokenCost (msgs : List ChatMsg) : Nat :=
  (msgs.map (fun m => getTokenLength m.content)).sum

/-- The `conversation_pairs` extraction loop: for each even index `i`
with `i < len - 1`, record `(messages[i], messages[i+1])` when they are
a `HumanMessage` followed by an `AIMessage`. -/
def convPairs : List ChatMsg → List (ChatMsg × ChatMsg)
  | a :: b :: rest =>
      (match a, b with
       | .human c, .ai c' => [(ChatMsg.human c, ChatMsg.ai c')]
       | _, _ => []) ++ convPairs rest
  | _ => []

/-- `sample_count` then `stride` of the reduction branch:
`sample_count = max(1, int(len(older_pairs) * sample_rate))` and
`stride = max(1, len(older_pairs) // sample_count)`. -/
def sampleStride (olderLen : Nat) (sampleRate : ℚ) : Nat :=
  let sampleCount := max 1 (Int.toNat ⌊(olderLen : ℚ) * sampleRate⌋)
  max 1 (olderLen / sampleCount)

/-- The most recent `min 3 (number of pairs)` conversation pairs:
`conversation_pairs[-keep_recent:]`. -/
def recentPairsOf (msgs : List ChatMsg) : List (ChatMsg × ChatMsg) :=
  let pairs := convPairs msgs
  pairs.drop (pairs.length - min 3 pairs.length)

/-- The rebuilt history of the reduction branch of
`dynamic_memory_reduction` (the code after the threshold test):
system messages, then a stride-sample of the older pairs, then the
most recent pairs, each pair flattened back to its two messages. -/
def reduceRebuild (msgs : List ChatMsg) (aggressive : Bool) : List ChatMsg :=
  let systemMessages := msgs.filter (fun m => !m.isConv)
  let pairs := convPairs msgs
  let keepRecent := min 3 pairs.length
  let recentPairs := pairs.drop (pairs.length - keepRecent)
  let olderPairs :=
    if keepRecent < pairs.length then pairs.take (pairs.length - keepRecent) else []
  let sampleRate : ℚ := if aggressive then 3/10 else 1/2
  let sampledPairs :=
    if olderPairs.isEmpty then ([] : List (ChatMsg × ChatMsg))
    else
      let stride := sampleStride olderPairs.length sampleRate
      ((List.range olderPairs.length).filter (fun i => i % stride = 0)).map
        (fun i => olderPairs.getD i (ChatMsg.human "", ChatMsg.ai ""))
  systemMessages ++ (sampledPairs ++ recentPairs).flatMap (fun p => [p.1, p.2])

/-- `dynamic_memory_reduction`.  Returns `(tokens_saved, new history)`:
if the token cost is within `max_token_limit * reduction_threshold`
the history is untouched and 0 is returned, otherwise the history is
replaced by `reduceRebuild` and the cost difference is returned. -/
def dynamic_memory_reduction (msgs : List ChatMsg) (maxTokenLimit : Nat)
    (reductionThreshold : ℚ) (aggressive : Bool) : Int × List ChatMsg :=
  if (tokenCost msgs : ℚ) ≤ (maxTokenLimit : ℚ) * reductionThreshold then (0, msgs)
  else
    ((tokenCost msgs : Int) - (tokenCost (reduceRebuild msgs aggressive) : Int),
     reduceRebuild msgs aggressive)

/-! ## Raw key-value store

The Redis key space, as the embedded code uses it: string keys mapping
to byte strings.  Newest binding first; `storeGet` sees the newest. -/

abbrev RedisStore := List (String × List Nat)

def storePut (store : RedisStore) (k : String) (v : List Nat) : RedisStore :=
  (k, v) :: store

def storeGet (store : RedisStore) (k : String) : Option (List Nat) :=
  (store.find? (fun e => decide (e.1 = k))).map (·.2)

/-- UTF-8-agnostic byte view of a string value (code points). -/
def strBytes (s : String) : List Nat :=
  s.data.map Char.toNat

/-! ## Batched history persistence (`app/services/chat_agent/helpers/
memory_optimizer.py`, `batch_save_context`)

For each `(user_msg, ai_msg)` pair the code computes
`key = "chat_history:" + conversation_id + ":" + str(int(time.time()))`
and pipelines `set(key, ai_msg, ex=ttl)`.  `int(time.time())` at the
i-th iteration is modelled by `clock i` (seconds; constant while the
loop runs within one second).  TTL expiry is wall-clock behaviour of
Redis and is not modelled.  The local memory, a
`ConversationTokenBufferMemory`, is modelled as its list of
(input, output) pairs; `save_context` appends one pair. -/

def batchSavePuts (cid : String) (clock : Nat → Nat) :
    Nat → List (String × String) → RedisStore → RedisStore
  | _, [], store => store
  | i, p :: rest, store =>
      batchSavePuts cid clock (i + 1) rest
        (storePut store ("chat_history:" ++ cid ++ ":" ++ toString (clock i)) (strBytes p.2))

/-- `batch_save_context`: returns the updated local memory and the
updated store. -/
def batch_save_context (memory : List (String × String))
    (chatPairs : List (String × String)) (store : RedisStore) (cid : String)
    (clock : Nat → Nat) : List (String × String) × RedisStore :=
  (memory ++ chatPairs, batchSavePuts cid clock 0 chatPairs store)

/-! ## Memory snapshot cache (`app/services/chat_agent/meta_agent.py`)

`_memory_cache` maps `(conversation_id, message_count)` to a
`ConversationTokenBufferMemory` **object**.  Because
`_update_memory` mutates the cached object in place, objects are
modelled by heap addresses: `heap` maps an address to the object's
recorded (input, output) pairs, and `cache` maps a
`(conversation_id, count)` key to an address (newest binding first,
Python dict update semantics). -/

structure MemStore where
  heap : List (List (String × String))
  cache : List ((String × Nat) × Nat)
deriving DecidableEq, Repr

def cacheFind (c : List ((String × Nat) × Nat)) (k : String × Nat) : Option Nat :=
  (c.find? (fun e => decide (e.1 = k))).map (·.2)

/-- `prev_msg_counts`: counts of cached entries for the same
conversation with fewer messages. -/
def prevCounts (c : List ((String × Nat) × Nat)) (cid : String) (m : Nat) : List Nat :=
  ((c.map (·.1)).filter (fun k => decide (k.1 = cid) && decide (k.2 < m))).map (·.2)

/-- `_create_memory_from_scratch`: allocate a fresh memory object and
process every message into it.  Returns the new address. -/
def createMemoryFromScratch (st : MemStore) (msgs : List ChatMsg) : Nat × MemStore :=
  (st.heap.length, ⟨st.heap ++ [processMessages msgs], st.cache⟩)

/-- `get_conv_token_buffer_memory`.  Returns the address of the
returned memory object, the new state, and the list of messages that
were run through the pairing routine `_process_messages` (the
"injected counter" observable). -/
def get_conv_token_buffer_memory (st : MemStore) (msgs : List ChatMsg)
    (cid? : Option String) : Nat × MemStore × List ChatMsg :=
  match cid? with
  | none =>
      let r := createMemoryFromScratch st msgs
      (r.1, r.2, msgs)
  | some cid =>
      if cid = "" ∨ msgs = [] then
        let r := createMemoryFromScratch st msgs
        (r.1, r.2, msgs)
      else
        let m := msgs.length
        match cacheFind st.cache (cid, m) with
        | some a => (a, st, [])
        | none =>
            match (prevCounts st.cache cid m).max? with
            | some p =>
                let a := (cacheFind st.cache (cid, p)).getD 0
                let newMsgs := msgs.drop p
                let mem' := (st.heap.getD a []) ++ processMessages newMsgs
                (a, ⟨st.heap.set a mem', ((cid, m), a) :: st.cache⟩, newMsgs)
            | none =>
                let r := createMemoryFromScratch st msgs
                (r.1, ⟨r.2.heap, ((cid, m), r.1) :: r.2.cache⟩, msgs)

/-! ## JSON values
(`json.dumps` / `json.loads` in `app/services/cache/async_redis_service.py`)

The Python value universe that the cache serializes is modelled by
`JValue` (null, booleans, integers, strings as code-point lists,
arrays), plus an `unserializable` marker below for values on which
`json.dumps` raises `TypeError`.  `jser` is the byte output of
`json.dumps` (string escaping modelled for quote and backslash, the
characters the cache's values need); `jparse` is `json.loads`,
accepting exactly the serializer's output and rejecting trailing
garbage, as `json.loads` does. -/

mutual
inductive JValue where
  | null : JValue
  | bool (b : Bool) : JValue
  | num (n : Int) : JValue
  | str (s : List Nat) : JValue
  | arr (xs : JArr) : JValue
inductive JArr where
  | nil : JArr
  | cons (v : JValue) (tl : JArr) : JArr
end

deriving instance DecidableEq for JValue
deriving instance Repr for JValue

/-- String escaping of `json.dumps`: quote and backslash get a
backslash; other modelled code points pass through. -/
def escapeStr : List Nat → List Nat
  | [] => []
  | c :: cs => (if c = 34 ∨ c = 92 then [92, c] else [c]) ++ escapeStr cs

/-- Decimal digits, most significant first, as ASCII codes; `fuel`
bounds the digit count (any `fuel ≥ n` is enough). -/
def serNatAux : Nat → Nat → List Nat
  | 0, _ => []
  | fuel + 1, n => if n = 0 then [] else serNatAux fuel (n / 10) ++ [n % 10 + 48]

/-- Decimal digits of a natural number, as ASCII codes. -/
def serNat (n : Nat) : List Nat :=
  if n = 0 then [48] else serNatAux n n

/-- Decimal rendering of a Python int. -/
def serInt : Int → List Nat
  | .ofNat n => serNat n
  | .negSucc m => 45 :: serNat (m + 1)

mutual
/-- `json.dumps`, to bytes (ASCII codes). -/
def jser : JValue → List Nat
  | .null => [110, 117, 108, 108]
  | .bool true => [116, 114, 117, 101]
  | .bool false => [102, 97, 108, 115, 101]
  | .num n => serInt n
  | .str s => 34 :: (escapeStr s ++ [34])
  | .arr xs => 91 :: (serArrElems xs ++ [93])
/-- Array elements, comma-separated, no brackets. -/
def serArrElems : JArr → List Nat
  | .nil => []
  | .cons v .nil => jser v
  | .cons v (.cons w tl) => jser v ++ 44 :: serArrElems (.cons w tl)
end

def isDigitCode (c : Nat) : Bool :=
  decide (48 ≤ c) && decide (c ≤ 57)

/-- Parse a run of decimal digits. -/
def parseNat (l : List Nat) : Option (Nat × List Nat) :=
  let ds := l.takeWhile isDigitCode
  if ds.isEmpty then none
  else some (ds.foldl (fun a c => 10 * a + (c - 48)) 0, l.dropWhile isDigitCode)

/-- Parse a string body after the opening quote, up to the closing
quote, undoing the escaping. -/
def parseStrBody : List Nat → Option (List Nat × List Nat)
  | [] => none
  | c :: r =>
      if c = 34 then some ([], r)
      else if c = 92 then
        match r with
        | [] => none
        | c2 :: r2 => (parseStrBody r2).map (fun p => (c2 :: p.1, p.2))
      else (parseStrBody r).map (fun p => (c :: p.1, p.2))

mutual
/-- `json.loads`, one value plus the remaining input; `fuel` bounds
array nesting depth. -/
def jparse : Nat → List Nat → Option (JValue × List Nat)
  | 0, _ => none
  | fuel + 1, l =>
      match l with
      | [] => none
      | c :: r =>
          if c = 110 then
            match r with
            | 117 :: 108 :: 108 :: r' => some (.null, r')
            | _ => none
          else if c = 116 then
            match r with
            | 114 :: 117 :: 101 :: r' => some (.bool true, r')
            | _ => none
          else if c = 102 then
            match r with
            | 97 :: 108 :: 115 :: 101 :: r' => some (.bool false, r')
            | _ => none
          else if c = 34 then (parseStrBody r).map (fun p => (JValue.str p.1, p.2))
          else if c = 45 then (parseNat r).map (fun p => (JValue.num (-(p.1 : Int)), p.2))
          else if c = 91 then (jparseArr fuel r).map (fun p => (JValue.arr p.1, p.2))
          else if isDigitCode c then
            (parseNat (c :: r)).map (fun p => (JValue.num (p.1 : Int), p.2))
          else none
/-- Array elements after the opening bracket, through the closing
bracket. -/
def jparseArr : Nat → List Nat → Option (JArr × List Nat)
  | _, [] => none
  | fuel, c :: r =>
      if c = 93 then some (.nil, r)
      else
        match fuel with
        | 0 => none
        | fuel' + 1 =>
            match jparse fuel' (c :: r) with
            | none => none
            | some (v, rest) =>
                match rest with
                | 44 :: r' =>
                    match jparseArr fuel' r' with
                    | none => none
                    | some (tl, r'') => some (.cons v tl, r'')
                | 93 :: r' => some (.cons v .nil, r')
                | _ => none
end

/-- `json.loads` on a whole byte string: the parse must consume all
input. -/
def jparseTop (l : List Nat) : Option JValue :=
  match jparse (l.length + 1) l with
  | some (v, []) => some v
  | _ => none

mutual
/-- Nesting measure: any fuel at least `jsize v` suffices to parse
`jser v`. -/
def jsize : JValue → Nat
  | .arr xs => jsizeArr xs + 1
  | _ => 1
def jsizeArr : JArr → Nat
  | .nil => 1
  | .cons v tl => max (jsize v) (jsizeArr tl) + 1
end

/-! ## Cache service (`app/services/cache/async_redis_service.py`,
`AsyncRedisService`)

zlib at the configured level emits a stream starting with bytes
`0x78 0x9c`; the code relies on exactly two properties of zlib
(compress/decompress invert, and the stream carries that sentinel
header), so compression is modelled as tagging with the header.
TTLs are wall-clock Redis behaviour and are not modelled; the
`ex=` argument does not affect which bytes are stored. -/

/-- A Python value handed to the cache: JSON-serializable, or one on
which `json.dumps` raises `TypeError`. -/
inductive CacheValue where
  | json (v : JValue)
  | unserializable
deriving DecidableEq, Repr

/-- `json.dumps(value).encode('utf-8')`, or `none` for `TypeError`. -/
def serializeValue : CacheValue → Option (List Nat)
  | .json v => some (jser v)
  | .unserializable => none

def zlibCompress (bs : List Nat) : List Nat :=
  120 :: 156 :: bs

/-- `_decompress`, including its fallback: on a non-zlib stream the
original value is returned. -/
def zlibDecompress (bs : List Nat) : List Nat :=
  if bs.take 2 = [120, 156] then bs.drop 2 else bs

/-- `value.startswith(b'x\x9c')`. -/
def startsWithZlib (bs : List Nat) : Bool :=
  decide (bs.take 2 = [120, 156])

/-- `_should_compress`: `len(value) > settings.compression_threshold`
with the default threshold 1024. -/
def shouldCompress (bs : List Nat) : Bool :=
  decide (1024 < bs.length)

/-- `_format_key`: `appPre:pre:key` or `appPre:key`, where `appPre`
is `settings.CACHE_PREFIX`. -/
def formatKey (appPre : String) (pre : Option String) (key : String) : String :=
  match pre with
  | some p => appPre ++ ":" ++ p ++ ":" ++ key
  | none => appPre ++ ":" ++ key

/-- What a `get` returns: a decoded JSON value, the raw text fallback
when JSON decoding fails, or the configured default when the key is
absent. -/
inductive GetResult where
  | json (v : JValue)
  | raw (bs : List Nat)
  | missing
deriving DecidableEq, Repr

namespace AsyncRedisService

/-- The shared post-lookup logic of `get` and `multi_get`: sniff the
zlib header, decompress if present, then try JSON decoding, falling
back to the raw text. -/
def decodeStored (bs : List Nat) : GetResult :=
  let v := if startsWithZlib bs then zlibDecompress bs else bs
  match jparseTop v with
  | some j => GetResult.json j
  | none => GetResult.raw v

/-- `AsyncRedisService.get` (with the default `decompress=True`). -/
def get (appPre : String) (store : RedisStore) (key : String)
    (pre : Option String) : GetResult :=
  match storeGet store (formatKey appPre pre key) with
  | none => GetResult.missing
  | some bs => decodeStored bs

/-- `AsyncRedisService.set`: serialize; on `TypeError` log and return
false; compress large values, recording a companion `:meta` key; then
write the value key.  Returns the new store and the boolean. -/
def set (appPre : String) (store : RedisStore) (key : String)
    (value : CacheValue) (pre : Option String) : RedisStore × Bool :=
  let fk := formatKey appPre pre key
  match serializeValue value with
  | none => (store, false)
  | some serialized =>
      if shouldCompress serialized then
        let store1 := storePut store (fk ++ ":meta") (strBytes "compressed")
        (storePut store1 fk (zlibCompress serialized), true)
      else
        (storePut store fk serialized, true)

/-- The pipeline built by the `multi_set` loop: per item, serialize;
a `TypeError` is caught and logged and the item contributes no
command; oversized values contribute a `:meta` command then the
compressed value command. -/
def buildPipe (appPre : String) (pre : Option String) :
    List (String × CacheValue) → List (String × List Nat)
  | [] => []
  | (k, v) :: rest =>
      let fk := formatKey appPre pre k
      (match serializeValue v with
       | none => []
       | some serialized =>
           if shouldCompress serialized then
             [(fk ++ ":meta", strBytes "compressed"), (fk, zlibCompress serialized)]
           else [(fk, serialized)]) ++ buildPipe appPre pre rest

/-- `AsyncRedisService.multi_set`: empty input returns true at once;
otherwise the pipeline commands are executed and the boolean is
`all(result for result in results)` over the per-command results
(each pipelined SET reports success once it executes). -/
def multi_set (appPre : String) (store : RedisStore)
    (items : List (String × CacheValue)) (pre : Option String) :
    RedisStore × Bool :=
  if items = [] then (store, true)
  else
    let cmds := buildPipe appPre pre items
    (cmds.foldl (fun s c => storePut s c.1 c.2) store,
     (cmds.map (fun _ => true)).all id)

/-- `AsyncRedisService.multi_get`: one pipelined read per key, in
order; absent keys are omitted; present values get the same
decompress-then-decode treatment as `get`. -/
def multi_get (appPre : String) (store : RedisStore) (keys : List String)
    (pre : Option String) : List (String × GetResult) :=
  keys.foldr (fun k acc =>
    match storeGet store (formatKey appPre pre k) with
    | none => acc
    | some bs => (k, decodeStored bs) :: acc) []

end AsyncRedisService

/-! ## Concrete instances used by closed theorems -/

/-- A concrete statement semantics for `execute_in_batches` instances:
appends the executed item to the database, failing on the item 13. -/
def exFail13 : List Nat → Nat → Option (List Nat) :=
  fun db n => if n = 13 then none else some (db ++ [n])

/-- A 264-character message content (counts as 67 fallback tokens). -/
def content264 : String := String.mk (List.replicate 264 'a')

/-- A 260-character message content (counts as 66 fallback tokens). -/
def content260 : String := String.mk (List.replicate 260 'a')

/-- A history of exactly three clean user/assistant pairs with total
fallback token cost 400: 4 messages of 67 tokens and 2 of 66. -/
def hist3 : List ChatMsg :=
  [ChatMsg.human content264, ChatMsg.ai content264,
   ChatMsg.human content264, ChatMsg.ai content264,
   ChatMsg.human content260, ChatMsg.ai content260]

/-- State after materializing conversation "c" with 2 messages from
an empty snapshot cache. -/
def stTwo : MemStore :=
  (get_conv_token_buffer_memory ⟨[], []⟩
    [ChatMsg.human "u1", ChatMsg.ai "a1"] (some "c")).2.1

/-- State after then materializing "c" with 1 message (a smaller
count, so a second, distinct object is created from scratch). -/
def stOne : MemStore :=
  (get_conv_token_buffer_memory stTwo [ChatMsg.human "x"] (some "c")).2.1

/-- State after then materializing "c" with 4 messages (extends the
object registered at the largest smaller count, 2). -/
def stFour : MemStore :=
  (get_conv_token_buffer_memory stOne
    [ChatMsg.human "u1", ChatMsg.ai "a1", ChatMsg.human "u3", ChatMsg.ai "a3"]
    (some "c")).2.1

/-! # Theorems -/

/-! ## Store lemmas -/

theorem storeGet_put_self (store : RedisStore) (k : String) (v : List Nat) :
    storeGet (storePut store k v) k = some v := by
  simp [storeGet, storePut, List.find?]

theorem storeGet_put_other (store : RedisStore) (k k' : String) (v : List Nat)
    (h : k ≠ k') : storeGet (storePut store k' v) k = storeGet store k := by
  have h' : (decide (k' = k)) = false := by simp [Ne.symm h]
  simp [storeGet, storePut, List.find?, h']

theorem str_ne_append_meta (k : String) : k ≠ k ++ ":meta" := by
  intro h
  have := congrArg String.length h
  simp [String.length_append] at this
  exact absurd this (by decide)

/-! ## Decimal serialization lemmas -/

theorem serNatAux_eq_digits : ∀ fuel n, n ≤ fuel →
    serNatAux fuel n = ((Nat.digits 10 n).map (· + 48)).reverse := by
  intro fuel
  induction fuel with
  | zero =>
      intro n h
      have hn : n = 0 := by omega
      subst hn
      simp [serNatAux]
  | succ fuel ih =>
      intro n h
      by_cases hn : n = 0
      · subst hn; simp [serNatAux]
      · have hdiv : n / 10 ≤ fuel := by
          have := Nat.div_lt_self (Nat.pos_of_ne_zero hn) (by norm_num : 1 < 10)
          omega
        rw [serNatAux, if_neg hn, ih _ hdiv,
          Nat.digits_def' (by norm_num : 1 < 10) (Nat.pos_of_ne_zero hn)]
        simp

theorem serNat_eq_digits (n : Nat) (hn : n ≠ 0) :
    serNat n = ((Nat.digits 10 n).map (· + 48)).reverse := by
  rw [serNat, if_neg hn, serNatAux_eq_digits n n le_rfl]

theorem serNat_ne_nil (n : Nat) : serNat n ≠ [] := by
  by_cases hn : n = 0
  · subst hn; simp [serNat]
  · rw [serNat_eq_digits n hn]
    simp [Nat.digits_ne_nil_iff_ne_zero, hn]

theorem serNat_all_digits (n : Nat) : ∀ c ∈ serNat n, isDigitCode c = true := by
  intro c hc
  by_cases hn : n = 0
  · subst hn; simp [serNat] at hc; subst hc; decide
  · rw [serNat_eq_digits n hn] at hc
    simp at hc
    obtain ⟨d, hd, rfl⟩ := hc
    have : d < 10 := Nat.digits_lt_base (by norm_num) hd
    simp [isDigitCode]
    omega

theorem foldl_decode (ds : List Nat) (a : Nat) :
    ((ds.map (· + 48)).reverse).foldl (fun acc c => 10 * acc + (c - 48)) a
      = a * 10 ^ ds.length + Nat.ofDigits 10 ds := by
  induction ds generalizing a with
  | nil => simp
  | cons d ds ih =>
      simp only [List.map_cons, List.reverse_cons, List.foldl_append, List.foldl_cons,
        List.foldl_nil, ih, Nat.ofDigits_cons, List.length_cons]
      have : d + 48 - 48 = d := by omega
      rw [this, pow_succ]
      ring

theorem takeWhile_append_all {p : Nat → Bool} (ds rest : List Nat)
    (hds : ∀ x ∈ ds, p x = true)
    (hrest : ∀ c, rest.head? = some c → p c = false) :
    (ds ++ rest).takeWhile p = ds ∧ (ds ++ rest).dropWhile p = rest := by
  induction ds with
  | nil =>
      simp only [List.nil_append]
      cases rest with
      | nil => simp
      | cons c t =>
          have hc : p c = false := hrest c rfl
          simp [List.takeWhile_cons, List.dropWhile_cons, hc]
  | cons d ds ih =>
      have hd : p d = true := hds d (by simp)
      have := ih (fun x hx => hds x (by simp [hx]))
      simp [List.takeWhile_cons, List.dropWhile_cons, hd, this.1, this.2]

theorem parseNat_serNat (n : Nat) (rest : List Nat)
    (hrest : ∀ c, rest.head? = some c → isDigitCode c = false) :
    parseNat (serNat n ++ rest) = some (n, rest) := by
  obtain ⟨htake, hdrop⟩ := takeWhile_append_all (serNat n) rest (serNat_all_digits n) hrest
  rw [parseNat]
  simp only [htake, hdrop]
  rw [if_neg (by simp [List.isEmpty_iff, serNat_ne_nil])]
  by_cases hn : n = 0
  · subst hn; simp [serNat]
  · rw [serNat_eq_digits n hn, foldl_decode, Nat.ofDigits_digits]
    simp

/-! ## String escaping lemmas -/

theorem parseStrBody_escape (s rest : List Nat) :
    parseStrBody (escapeStr s ++ (34 :: rest)) = some (s, rest) := by
  induction s with
  | nil =>
      simp only [escapeStr, List.nil_append]
      rw [parseStrBody.eq_def]
      simp
  | cons c cs ih =>
      by_cases h34 : c = 34
      · subst h34
        have hesc : escapeStr (34 :: cs) = 92 :: 34 :: escapeStr cs := by
          rw [escapeStr, if_pos (by norm_num)]
          rfl
        rw [hesc]
        simp only [List.cons_append]
        rw [parseStrBody.eq_def]
        simp [ih]
      · by_cases h92 : c = 92
        · subst h92
          have hesc : escapeStr (92 :: cs) = 92 :: 92 :: escapeStr cs := by
            rw [escapeStr, if_pos (by norm_num)]
            rfl
          rw [hesc]
          simp only [List.cons_append]
          rw [parseStrBody.eq_def]
          simp [ih]
        · have hesc : escapeStr (c :: cs) = c :: escapeStr cs := by
            rw [escapeStr, if_neg (by tauto)]
            simp
          rw [hesc]
          simp only [List.cons_append]
          rw [parseStrBody.eq_def]
          simp [h34, h92, ih]

/-! ## Serializer head-character lemmas -/

theorem jser_head (v : JValue) :
    ∃ c t, jser v = c :: t ∧
      (c = 110 ∨ c = 116 ∨ c = 102 ∨ c = 34 ∨ c = 45 ∨ (48 ≤ c ∧ c ≤ 57) ∨ c = 91) := by
  cases v with
  | null => exact ⟨110, _, rfl, by omega⟩
  | bool b =>
      cases b with
      | true => exact ⟨116, _, rfl, by omega⟩
      | false => exact ⟨102, _, rfl, by omega⟩
  | num n =>
      cases n with
      | ofNat m =>
          cases hd : serNat m with
          | nil => exact absurd hd (serNat_ne_nil m)
          | cons c t =>
              refine ⟨c, t, by simp [jser, serInt, hd], ?_⟩
              have := serNat_all_digits m c (by simp [hd])
              simp [isDigitCode] at this
              omega
      | negSucc m => exact ⟨45, _, rfl, by omega⟩
  | str s => exact ⟨34, _, rfl, by omega⟩
  | arr xs => exact ⟨91, _, rfl, by omega⟩

theorem jser_ne_nil (v : JValue) : jser v ≠ [] := by
  obtain ⟨c, t, h, -⟩ := jser_head v
  simp [h]

theorem startsWithZlib_jser (v : JValue) : startsWithZlib (jser v) = false := by
  obtain ⟨c, t, h, hc⟩ := jser_head v
  rw [h, startsWithZlib]
  simp only [decide_eq_false_iff_not]
  intro heq
  cases t with
  | nil => simp [List.take] at heq
  | cons a u =>
      simp [List.take] at heq
      omega

/-! ## Parser/serializer inversion -/

theorem serInt_ne_nil (n : Int) : serInt n ≠ [] := by
  cases n with
  | ofNat m => simp [serInt, serNat_ne_nil]
  | negSucc m => simp [serInt]

theorem jsize_pos (v : JValue) : 1 ≤ jsize v := by
  cases v <;> simp [jsize]

theorem jsizeArr_pos (xs : JArr) : 1 ≤ jsizeArr xs := by
  cases xs <;> simp [jsizeArr]

mutual
theorem jsize_le_length : (v : JValue) → jsize v ≤ (jser v).length
  | .null => by simp [jsize, jser]
  | .bool b => by cases b <;> simp [jsize, jser]
  | .num n => by
      have := List.length_pos.2 (serInt_ne_nil n)
      simp [jsize, jser]
      omega
  | .str s => by simp [jsize, jser]
  | .arr xs => by
      have := jsizeArr_le_length xs
      simp [jsize, jser]
      omega
theorem jsizeArr_le_length : (xs : JArr) → jsizeArr xs ≤ (serArrElems xs).length + 1
  | .nil => by simp [jsizeArr, serArrElems]
  | .cons v .nil => by
      have h1 := jsize_le_length v
      have h2 := List.length_pos.2 (jser_ne_nil v)
      simp [jsizeArr, serArrElems, jsizeArr.eq_def]
      omega
  | .cons v (.cons w tl) => by
      have h1 := jsize_le_length v
      have h2 := jsizeArr_le_length (.cons w tl)
      have e1 : jsizeArr (.cons v (.cons w tl))
          = max (jsize v) (jsizeArr (.cons w tl)) + 1 := rfl
      have e2 : serArrElems (.cons v (.cons w tl))
          = jser v ++ 44 :: serArrElems (.cons w tl) := rfl
      rw [e1, e2]
      simp only [List.length_append, List.length_cons]
      omega
end

theorem jparse_jser_joint : ∀ fuel : Nat,
    (∀ (v : JValue) (rest : List Nat), jsize v ≤ fuel →
      (∀ c, rest.head? = some c → c = 44 ∨ c = 93) →
      jparse fuel (jser v ++ rest) = some (v, rest))
    ∧ (∀ (xs : JArr) (rest : List Nat), jsizeArr xs ≤ fuel →
      (∀ c, rest.head? = some c → c = 44 ∨ c = 93) →
      jparseArr fuel (serArrElems xs ++ (93 :: rest)) = some (xs, rest)) := by
  intro fuel
  induction fuel with
  | zero =>
      constructor
      · intro v rest hs _
        exact absurd hs (by have := jsize_pos v; omega)
      · intro xs rest hs _
        exact absurd hs (by have := jsizeArr_pos xs; omega)
  | succ fuel ih =>
      obtain ⟨ihV, ihA⟩ := ih
      have hsepDigit : ∀ (rest : List Nat),
          (∀ c, rest.head? = some c → c = 44 ∨ c = 93) →
          (∀ c, rest.head? = some c → isDigitCode c = false) := by
        intro rest h c hc
        rcases h c hc with rfl | rfl <;> decide
      constructor
      · intro v rest hs hsep
        cases v with
        | null =>
            show jparse (fuel + 1) ([110, 117, 108, 108] ++ rest) = _
            rw [jparse.eq_def]
            simp
        | bool b =>
            cases b with
            | true =>
                show jparse (fuel + 1) ([116, 114, 117, 101] ++ rest) = _
                rw [jparse.eq_def]
                simp
            | false =>
                show jparse (fuel + 1) ([102, 97, 108, 115, 101] ++ rest) = _
                rw [jparse.eq_def]
                simp
        | num n =>
            cases n with
            | ofNat m =>
                show jparse (fuel + 1) (serNat m ++ rest) = _
                cases hd : serNat m with
                | nil => exact absurd hd (serNat_ne_nil m)
                | cons c t =>
                    have hdig := serNat_all_digits m c (by simp [hd])
                    simp [isDigitCode] at hdig
                    simp only [List.cons_append]
                    rw [jparse.eq_def]
                    simp only [if_neg (by omega : ¬ c = 110), if_neg (by omega : ¬ c = 116),
                      if_neg (by omega : ¬ c = 102), if_neg (by omega : ¬ c = 34),
                      if_neg (by omega : ¬ c = 45), if_neg (by omega : ¬ c = 91),
                      if_pos (by simp [isDigitCode]; omega : isDigitCode c = true)]
                    rw [show c :: (t ++ rest) = (c :: t) ++ rest from rfl, ← hd,
                      parseNat_serNat m rest (hsepDigit rest hsep)]
                    rfl
            | negSucc m =>
                show jparse (fuel + 1) ((45 :: serNat (m + 1)) ++ rest) = _
                simp only [List.cons_append]
                rw [jparse.eq_def]
                simp only [if_neg (by omega : ¬ (45 : Nat) = 110),
                  if_neg (by omega : ¬ (45 : Nat) = 116),
                  if_neg (by omega : ¬ (45 : Nat) = 102),
                  if_neg (by omega : ¬ (45 : Nat) = 34),
                  if_pos (rfl : (45 : Nat) = 45)]
                rw [parseNat_serNat (m + 1) rest (hsepDigit rest hsep)]
                simp [Int.negSucc_eq]
        | str s =>
            show jparse (fuel + 1) ((34 :: (escapeStr s ++ [34])) ++ rest) = _
            simp only [List.cons_append]
            rw [jparse.eq_def]
            simp only [if_neg (by omega : ¬ (34 : Nat) = 110),
              if_neg (by omega : ¬ (34 : Nat) = 116),
              if_neg (by omega : ¬ (34 : Nat) = 102),
              if_pos (rfl : (34 : Nat) = 34)]
            rw [show escapeStr s ++ [34] ++ rest = escapeStr s ++ (34 :: rest) by simp,
              parseStrBody_escape]
            rfl
        | arr xs =>
            show jparse (fuel + 1) ((91 :: (serArrElems xs ++ [93])) ++ rest) = _
            simp only [List.cons_append]
            rw [jparse.eq_def]
            simp only [if_neg (by omega : ¬ (91 : Nat) = 110),
              if_neg (by omega : ¬ (91 : Nat) = 116),
              if_neg (by omega : ¬ (91 : Nat) = 102),
              if_neg (by omega : ¬ (91 : Nat) = 34),
              if_neg (by omega : ¬ (91 : Nat) = 45),
              if_pos (rfl : (91 : Nat) = 91)]
            have hxs : jsizeArr xs ≤ fuel := by
              have : jsize (JValue.arr xs) = jsizeArr xs + 1 := rfl
              omega
            rw [show serArrElems xs ++ [93] ++ rest = serArrElems xs ++ (93 :: rest) by simp,
              ihA xs rest hxs hsep]
            rfl
      · intro xs rest hs hsep
        cases xs with
        | nil =>
            show jparseArr (fuel + 1) ([] ++ (93 :: rest)) = _
            rw [jparseArr.eq_def]
            simp
        | cons v tl =>
            have hv : jsize v ≤ fuel := by
              have : jsizeArr (JArr.cons v tl) = max (jsize v) (jsizeArr tl) + 1 := rfl
              omega
            obtain ⟨c, t, hd, hc⟩ := jser_head v
            cases tl with
            | nil =>
                show jparseArr (fuel + 1) (jser v ++ (93 :: rest)) = _
                rw [hd]
                simp only [List.cons_append]
                rw [jparseArr.eq_def]
                simp only [if_neg (by omega : ¬ c = 93)]
                rw [show c :: (t ++ (93 :: rest)) = (c :: t) ++ (93 :: rest) from rfl, ← hd,
                  ihV v (93 :: rest) hv
                    (by intro c' hc'
                        have h93 : c' = 93 := by simpa [eq_comm] using hc'
                        omega)]
            | cons w tl' =>
                have htl : jsizeArr (JArr.cons w tl') ≤ fuel := by
                  have : jsizeArr (JArr.cons v (JArr.cons w tl'))
                      = max (jsize v) (jsizeArr (JArr.cons w tl')) + 1 := rfl
                  omega
                show jparseArr (fuel + 1)
                    ((jser v ++ (44 :: serArrElems (JArr.cons w tl'))) ++ (93 :: rest)) = _
                rw [hd]
                simp only [List.cons_append, List.append_assoc]
                rw [jparseArr.eq_def]
                simp only [if_neg (by omega : ¬ c = 93)]
                rw [show c :: (t ++ (44 :: (serArrElems (JArr.cons w tl') ++ 93 :: rest)))
                      = (c :: t) ++ (44 :: (serArrElems (JArr.cons w tl') ++ 93 :: rest))
                      from rfl, ← hd,
                  ihV v _ hv
                    (by intro c' hc'
                        have h44 : c' = 44 := by simpa [eq_comm] using hc'
                        omega)]
                simp only []
                rw [ihA (JArr.cons w tl') rest htl hsep]

theorem jparseTop_jser (v : JValue) : jparseTop (jser v) = some v := by
  have hfuel : jsize v ≤ (jser v).length + 1 :=
    le_trans (jsize_le_length v) (by omega)
  have h := (jparse_jser_joint ((jser v).length + 1)).1 v [] hfuel
    (by intro c hc; simp at hc)
  rw [jparseTop]
  simp only [List.append_nil] at h
  rw [h]

theorem decodeStored_plain (v : JValue) :
    AsyncRedisService.decodeStored (jser v) = GetResult.json v := by
  rw [AsyncRedisService.decodeStored]
  simp [startsWithZlib_jser, jparseTop_jser]

theorem decodeStored_compressed (v : JValue) :
    AsyncRedisService.decodeStored (zlibCompress (jser v)) = GetResult.json v := by
  rw [AsyncRedisService.decodeStored]
  have h1 : startsWithZlib (zlibCompress (jser v)) = true := by
    simp [startsWithZlib, zlibCompress]
  have h2 : zlibDecompress (zlibCompress (jser v)) = jser v := by
    simp [zlibDecompress, zlibCompress]
  simp [h1, h2, jparseTop_jser]

/-- C6: for every key and every JSON-serializable value `v`, `get`
after `set` returns a value deep-equal to `v`, and `set` reports
success.  The statement quantifies over all values, so it covers both
the below-threshold (uncompressed) and the above-threshold
(compressed) storage paths; the `shouldCompress` case split in the
proof handles the two paths separately. -/
theorem claim_C6_roundtrip (appPre : String) (store : RedisStore) (key : String)
    (pre : Option String) (v : JValue) :
    (AsyncRedisService.set appPre store key (CacheValue.json v) pre).2 = true
    ∧ AsyncRedisService.get appPre
        (AsyncRedisService.set appPre store key (CacheValue.json v) pre).1 key pre
        = GetResult.json v := by
  rw [AsyncRedisService.set]
  simp only [serializeValue]
  by_cases hcmp : shouldCompress (jser v)
  · rw [if_pos hcmp]
    refine ⟨rfl, ?_⟩
    rw [AsyncRedisService.get, storeGet_put_self]
    exact decodeStored_compressed v
  · rw [if_neg hcmp]
    refine ⟨rfl, ?_⟩
    rw [AsyncRedisService.get, storeGet_put_self]
    exact decodeStored_plain v

/-- C2, counterexample to the claim as stated: in a `multi_set` of two
items where the second value fails to serialize and the first
succeeds, the first value is written and round-trips via `multi_get`,
yet the boolean returned by `multi_set` is `true`, not `false`: the
serialization failure is skipped before the pipeline and leaves no
trace in the aggregate result. -/
theorem claim_C2_counterexample :
    serializeValue CacheValue.unserializable = none
    ∧ (AsyncRedisService.multi_set "app" []
        [("a", CacheValue.json (JValue.str [104, 105])), ("b", CacheValue.unserializable)]
        none).2 = true
    ∧ AsyncRedisService.multi_get "app"
        (AsyncRedisService.multi_set "app" []
          [("a", CacheValue.json (JValue.str [104, 105])), ("b", CacheValue.unserializable)]
          none).1 ["a", "b"] none
        = [("a", GetResult.json (JValue.str [104, 105]))] := by
  refine ⟨rfl, ?_, ?_⟩ <;> decide

theorem string_append_right_inj (s t1 t2 : String) (h : s ++ t1 = s ++ t2) : t1 = t2 := by
  have hd := congrArg String.data h
  simp only [String.data_append] at hd
  have hc := List.append_cancel_left hd
  cases t1
  cases t2
  exact congrArg String.mk hc

theorem formatKey_inj (appPre : String) (pre : Option String) (k1 k2 : String)
    (h : formatKey appPre pre k1 = formatKey appPre pre k2) : k1 = k2 := by
  cases pre with
  | none => exact string_append_right_inj _ k1 k2 h
  | some p => exact string_append_right_inj _ k1 k2 h

theorem formatKey_append_meta (appPre : String) (pre : Option String) (k : String) :
    formatKey appPre pre k ++ ":meta" = formatKey appPre pre (k ++ ":meta") := by
  cases pre <;> simp [formatKey, String.append_assoc]

theorem buildPipe_append (appPre : String) (pre : Option String)
    (l1 l2 : List (String × CacheValue)) :
    AsyncRedisService.buildPipe appPre pre (l1 ++ l2)
      = AsyncRedisService.buildPipe appPre pre l1
        ++ AsyncRedisService.buildPipe appPre pre l2 := by
  induction l1 with
  | nil => simp [AsyncRedisService.buildPipe]
  | cons e t ih =>
      obtain ⟨k, v⟩ := e
      rw [List.cons_append, AsyncRedisService.buildPipe, AsyncRedisService.buildPipe, ih,
        List.append_assoc]

/-- Every command the `multi_set` loop enqueues is either the value
write or the `:meta` companion write of one of the items. -/
theorem buildPipe_cmd_keys (appPre : String) (pre : Option String) :
    ∀ (items : List (String × CacheValue)) c,
    c ∈ AsyncRedisService.buildPipe appPre pre items →
    ∃ e ∈ items, c.1 = formatKey appPre pre e.1
      ∨ c.1 = formatKey appPre pre e.1 ++ ":meta" := by
  intro items
  induction items with
  | nil => intro c hc; simp [AsyncRedisService.buildPipe] at hc
  | cons e t ih =>
      intro c hc
      obtain ⟨k, v⟩ := e
      rw [AsyncRedisService.buildPipe] at hc
      rcases List.mem_append.1 hc with hin | hin
      · refine ⟨(k, v), by simp, ?_⟩
        cases v with
        | unserializable => simp [serializeValue] at hin
        | json j =>
            dsimp only [serializeValue] at hin
            by_cases hcmp : shouldCompress (jser j)
            · rw [if_pos hcmp] at hin
              simp at hin
              rcases hin with rfl | rfl
              · right; rfl
              · left; rfl
            · rw [if_neg hcmp] at hin
              simp at hin
              subst hin
              left; rfl
      · obtain ⟨e', he', hor⟩ := ih c hin
        exact ⟨e', by simp [he'], hor⟩

theorem storeGet_foldl_not_written :
    ∀ (cmds : List (String × List Nat)) (store : RedisStore) (key : String),
    (∀ c ∈ cmds, c.1 ≠ key) →
    storeGet (cmds.foldl (fun s c => storePut s c.1 c.2) store) key = storeGet store key := by
  intro cmds
  induction cmds with
  | nil => intro store key _; rfl
  | cons c t ih =>
      intro store key h
      rw [List.foldl_cons]
      rw [ih (storePut store c.1 c.2) key (fun c' hc' => h c' (by simp [hc']))]
      exact storeGet_put_other store key c.1 c.2 (fun heq => h c (by simp) heq.symm)

/-- After the `multi_set` pipeline runs over a map holding
`(k, json j)`, with no later command writing `k`'s formatted key, the
store holds `k`'s serialized (possibly compressed) bytes. -/
theorem multi_set_stores_key (appPre : String) (store : RedisStore) (pre : Option String)
    (items1 items2 : List (String × CacheValue)) (k : String) (j : JValue)
    (hpost : ∀ c ∈ AsyncRedisService.buildPipe appPre pre items2,
      c.1 ≠ formatKey appPre pre k) :
    storeGet ((AsyncRedisService.buildPipe appPre pre
          (items1 ++ (k, CacheValue.json j) :: items2)).foldl
        (fun s c => storePut s c.1 c.2) store) (formatKey appPre pre k)
      = some (if shouldCompress (jser j) then zlibCompress (jser j) else jser j) := by
  rw [buildPipe_append, AsyncRedisService.buildPipe]
  dsimp only [serializeValue]
  rw [List.foldl_append, List.foldl_append]
  rw [storeGet_foldl_not_written (AsyncRedisService.buildPipe appPre pre items2) _ _ hpost]
  by_cases hcmp : shouldCompress (jser j)
  · rw [if_pos hcmp, if_pos hcmp]
    simp only [List.foldl_cons, List.foldl_nil]
    exact storeGet_put_self _ _ _
  · rw [if_neg hcmp, if_neg hcmp]
    simp only [List.foldl_cons, List.foldl_nil]
    exact storeGet_put_self _ _ _

/-- C2, amended: for every item map given to `multi_set` in which at
least one value fails to serialize, `multi_set` returns `true`, not
`false` — the failure is caught and skipped before the pipeline, so
the aggregate boolean reflects only the issued writes — and every
serializable entry `(k, json j)` of the map (its key occurring once,
as in a Python dict, and not equal to another item's key extended by
`":meta"`, which would collide with that item's compression-metadata
write) is still written and round-trips via `multi_get`. -/
theorem claim_C2_amended (appPre : String) (store : RedisStore) (pre : Option String)
    (items : List (String × CacheValue))
    (hfail : ∃ e ∈ items, e.2 = CacheValue.unserializable) :
    (AsyncRedisService.multi_set appPre store items pre).2 = true
    ∧ (∀ (k : String) (j : JValue) (items1 items2 : List (String × CacheValue)),
        items = items1 ++ (k, CacheValue.json j) :: items2 →
        (∀ e ∈ items1 ++ items2, e.1 ≠ k) →
        (∀ e ∈ items, k ≠ e.1 ++ ":meta") →
        AsyncRedisService.multi_get appPre
            (AsyncRedisService.multi_set appPre store items pre).1 [k] pre
          = [(k, GetResult.json j)]) := by
  have hne : items ≠ [] := by
    obtain ⟨e, he, -⟩ := hfail
    intro h
    rw [h] at he
    simp at he
  constructor
  · rw [AsyncRedisService.multi_set, if_neg hne]
    simp [List.all_eq_true]
  · intro k j items1 items2 heq honce hmeta
    subst heq
    rw [AsyncRedisService.multi_set, if_neg hne]
    dsimp only
    rw [AsyncRedisService.multi_get]
    simp only [List.foldr_cons, List.foldr_nil]
    have hpost : ∀ c ∈ AsyncRedisService.buildPipe appPre pre items2,
        c.1 ≠ formatKey appPre pre k := by
      intro c hc hceq
      obtain ⟨e, he, hor⟩ := buildPipe_cmd_keys appPre pre items2 c hc
      rcases hor with h1 | h1
      · have hek : e.1 = k := formatKey_inj appPre pre e.1 k (by rw [← h1, hceq])
        exact honce e (List.mem_append.2 (Or.inr he)) hek
      · rw [formatKey_append_meta] at h1
        have hek : e.1 ++ ":meta" = k :=
          formatKey_inj appPre pre (e.1 ++ ":meta") k (by rw [← h1, hceq])
        exact hmeta e
          (List.mem_append.2 (Or.inr (List.mem_cons_of_mem _ he))) hek.symm
    rw [multi_set_stores_key appPre store pre items1 items2 k j hpost]
    by_cases hcmp : shouldCompress (jser j)
    · rw [if_pos hcmp]
      simp [decodeStored_compressed]
    · rw [if_neg hcmp]
      simp [decodeStored_plain]

theorem claim_C2_witness :
    (∃ e ∈ ([("x", CacheValue.json (JValue.str [104])), ("b", CacheValue.unserializable),
        ("z", CacheValue.json (JValue.str [106]))] : List (String × CacheValue)),
      e.2 = CacheValue.unserializable)
    ∧ (AsyncRedisService.multi_set "app" []
        [("x", CacheValue.json (JValue.str [104])), ("b", CacheValue.unserializable),
         ("z", CacheValue.json (JValue.str [106]))] none).2 = true
    ∧ AsyncRedisService.multi_get "app"
        (AsyncRedisService.multi_set "app" []
          [("x", CacheValue.json (JValue.str [104])), ("b", CacheValue.unserializable),
           ("z", CacheValue.json (JValue.str [106]))] none).1 ["z"] none
      = [("z", GetResult.json (JValue.str [106]))] := by
  have h := claim_C2_amended "app" [] none
      [("x", CacheValue.json (JValue.str [104])), ("b", CacheValue.unserializable),
       ("z", CacheValue.json (JValue.str [106]))] (by decide)
  exact ⟨by decide, h.1,
    h.2 "z" (JValue.str [106])
      [("x", CacheValue.json (JValue.str [104])), ("b", CacheValue.unserializable)] []
      rfl (by decide) (by decide)⟩

/-! ## C9: token counter -/

/-- C9, counterexample to the claim as stated: the fallback path
counts the 5-character text "abcde" as `5 // 4 + 1 = 2` tokens, not
`ceil(5/4) + 1 = 3` as the claim's formula and example state; and the
empty text counts as 0, where the claim's formula gives 1. -/
theorem claim_C9_counterexample :
    getTokenLength "abcde" = 2
    ∧ ("abcde".length + 3) / 4 + 1 = 3
    ∧ getTokenLength "abcde" ≠ ("abcde".length + 3) / 4 + 1
    ∧ getTokenLength "" = 0 := by
  refine ⟨?_, ?_, ?_, ?_⟩ <;> decide

/-- C9, amended: the fallback token counter returns a natural number
(hence non-negative); it returns 0 for the empty text, and for
nonempty text exactly `len // 4 + 1`, which equals `(len + 4) / 4`
(the ceiling of `(len+1)/4`), so a 5-character text counts as 2
tokens. -/
theorem claim_C9_amended (s : String) :
    (s = "" → getTokenLength s = 0)
    ∧ (s ≠ "" → getTokenLength s = (s.length + 4) / 4) := by
  constructor
  · intro h
    simp [getTokenLength, h]
  · intro h
    rw [getTokenLength, if_neg h]
    omega

theorem claim_C9_witness :
    ("hello!" : String) ≠ "" ∧ getTokenLength "hello!" = ("hello!".length + 4) / 4 :=
  ⟨by decide, (claim_C9_amended "hello!").2 (by decide)⟩

/-! ## C1: streaming completeness -/

theorem serverCursorAux_flatten : ∀ fuel b (l : List ρ), 0 < b → l.length ≤ fuel →
    (serverCursorAux fuel b l).flatten = l := by
  intro fuel
  induction fuel with
  | zero =>
      intro b l _ hl
      have h : l = [] := List.eq_nil_of_length_eq_zero (by omega)
      subst h
      simp [serverCursorAux]
  | succ fuel ih =>
      intro b l hb hl
      rw [serverCursorAux]
      by_cases hemp : (l.take b).isEmpty
      · rw [if_pos hemp]
        have h : l = [] := by
          rcases l with _ | ⟨a, t⟩
          · rfl
          · exfalso
            rcases b with _ | b'
            · omega
            · simp at hemp
        subst h
        simp
      · rw [if_neg hemp]
        simp only [List.flatten_cons]
        rw [ih b (l.drop b) hb (by simp [List.length_drop]; omega)]
        exact List.take_append_drop b l

/-- C1, counterexample to the claim as stated: the claim quantifies
over every batch size `B < N`, but with `B = 0 < 1 = N` the cursor
loop's first `FETCH 0` returns no rows, so the loop stops at once and
the streaming path yields 0 rows instead of the 1 row of the
non-streamed fetch. -/
theorem claim_C1_counterexample :
    0 < ([0] : List Nat).length
    ∧ fetch_large_dataset 0 (fun r => r) ([0] : List Nat) = []
    ∧ (PostgresService.fetch ([0] : List Nat)).rows = [0]
    ∧ fetch_large_dataset 0 (fun r => r) ([0] : List Nat)
        ≠ (PostgresService.fetch ([0] : List Nat)).rows := by
  refine ⟨?_, ?_, ?_, ?_⟩ <;> decide

/-- C1, amended: for every positive batch size `B` with `B < N`, the
streaming path yields exactly the `N` rows of the query, equal to and
in the same order as the single non-streamed fetch. -/
theorem claim_C1_amended (rows : List ρ) (batchSize : Nat)
    (hb : 0 < batchSize) (hlt : batchSize < rows.length) :
    fetch_large_dataset batchSize (fun r => r) rows = (PostgresService.fetch rows).rows
    ∧ (fetch_large_dataset batchSize (fun r => r) rows).length
        = (PostgresService.fetch rows).count := by
  have h := serverCursorAux_flatten rows.length batchSize rows hb le_rfl
  have hmain : fetch_large_dataset batchSize (fun r => r) rows = rows := by
    rw [fetch_large_dataset, serverCursorBatches, h]
    simp
  constructor
  · rw [hmain]
    rfl
  · rw [hmain]
    rfl

theorem claim_C1_witness :
    0 < 2 ∧ 2 < ([10, 20, 30] : List Nat).length
    ∧ fetch_large_dataset 2 (fun r => r) ([10, 20, 30] : List Nat)
        = (PostgresService.fetch ([10, 20, 30] : List Nat)).rows :=
  ⟨by decide, by decide, (claim_C1_amended [10, 20, 30] 2 (by decide) (by decide)).1⟩

/-! ## C7: batched bulk execution -/

theorem toBatchesAux_flatten : ∀ fuel b (l : List α), 0 < b → l.length ≤ fuel →
    (toBatchesAux fuel b l).flatten = l := by
  intro fuel
  induction fuel with
  | zero =>
      intro b l _ hl
      have h : l = [] := List.eq_nil_of_length_eq_zero (by omega)
      subst h
      simp [toBatchesAux]
  | succ fuel ih =>
      intro b l hb hl
      rw [toBatchesAux]
      by_cases hemp : (l.take b).isEmpty
      · rw [if_pos hemp]
        have h : l = [] := by
          rcases l with _ | ⟨a, t⟩
          · rfl
          · exfalso
            rcases b with _ | b'
            · omega
            · simp at hemp
        subst h
        simp
      · rw [if_neg hemp]
        simp only [List.flatten_cons]
        rw [ih b (l.drop b) hb (by simp [List.length_drop]; omega)]
        exact List.take_append_drop b l

theorem toBatchesAux_batch_le : ∀ fuel b (l : List α) batch,
    batch ∈ toBatchesAux fuel b l → batch.length ≤ b := by
  intro fuel
  induction fuel with
  | zero => intro b l batch h; simp [toBatchesAux] at h
  | succ fuel ih =>
      intro b l batch h
      rw [toBatchesAux] at h
      by_cases hemp : (l.take b).isEmpty
      · rw [if_pos hemp] at h
        simp at h
      · rw [if_neg hemp] at h
        rcases List.mem_cons.1 h with rfl | h'
        · simp [List.length_take]
        · exact ih b (l.drop b) batch h'

theorem runBatch_append (exec : σ → α → Option σ) (db : σ) (xs ys : List α) :
    runBatch exec db (xs ++ ys)
      = (runBatch exec db xs).bind (fun d => runBatch exec d ys) := by
  induction xs generalizing db with
  | nil => simp [runBatch]
  | cons x xs ih =>
      rw [List.cons_append, runBatch, runBatch]
      cases exec db x with
      | none => rfl
      | some db' => exact ih db'

theorem execGo_ok (exec : σ → α → Option σ) (total : Nat) :
    ∀ (batches : List (List α)) (db db' : σ) (processed : Nat),
    runBatch exec db batches.flatten = some db' →
    execBatchesGo exec total db processed batches
      = (db', cumTrace total processed batches, .ok (processed + batches.flatten.length)) := by
  intro batches
  induction batches with
  | nil =>
      intro db db' processed h
      simp [runBatch] at h
      subst h
      simp [execBatchesGo, cumTrace]
  | cons b bs ih =>
      intro db db' processed h
      rw [List.flatten_cons, runBatch_append] at h
      cases hb : runBatch exec db b with
      | none => rw [hb] at h; simp at h
      | some d1 =>
          rw [hb] at h
          simp only [Option.some_bind] at h
          rw [execBatchesGo, hb]
          dsimp only
          rw [ih d1 db' (processed + b.length) h]
          rw [cumTrace]
          simp only [List.flatten_cons, List.length_append, Nat.add_assoc]

theorem execGo_fail (exec : σ → α → Option σ) (total : Nat) :
    ∀ (k : Nat) (batches : List (List α)) (db dbp : σ) (processed : Nat) (bk : List α),
    batches.get? k = some bk →
    runBatch exec db (batches.take k).flatten = some dbp →
    runBatch exec dbp bk = none →
    execBatchesGo exec total db processed batches
      = (dbp, cumTrace total processed (batches.take k), .sqlError) := by
  intro k
  induction k with
  | zero =>
      intro batches db dbp processed bk hget hpre hfail
      rcases batches with _ | ⟨b, bs⟩
      · simp at hget
      · simp at hget
        subst hget
        simp [runBatch] at hpre
        subst hpre
        rw [execBatchesGo, hfail]
        simp [cumTrace, List.take_zero]
  | succ k ih =>
      intro batches db dbp processed bk hget hpre hfail
      rcases batches with _ | ⟨b, bs⟩
      · simp at hget
      · simp only [List.get?_cons_succ] at hget
        rw [List.take_succ_cons, List.flatten_cons, runBatch_append] at hpre
        cases hb : runBatch exec db b with
        | none => rw [hb] at hpre; simp at hpre
        | some d1 =>
            rw [hb] at hpre
            simp only [Option.some_bind] at hpre
            rw [execBatchesGo, hb]
            dsimp only
            rw [ih bs d1 dbp (processed + b.length) bk hget hpre hfail]
            rw [List.take_succ_cons, cumTrace]

/-- C7: for every list of `M` items and positive batch size `B`,
every batch holds at most `B` items and runs in its own transaction;
if all statements succeed the function returns `M` with the callback
invoked once per batch with `(processed-so-far, total)`; if the
statements succeed through the first `k` batches and then some
statement of batch `k` fails, the items of batches `1..k-1` remain
committed (the final database is exactly the one after those
batches), batch `k` and later batches leave no trace, and the error
propagates. -/
theorem claim_C7_batches (exec : σ → α → Option σ) (db : σ) (items : List α)
    (batchSize : Nat) (hb : 0 < batchSize) :
    (∀ batch ∈ toBatches batchSize items, batch.length ≤ batchSize)
    ∧ (∀ db', runBatch exec db items = some db' →
        execute_in_batches exec db items batchSize
          = (db', cumTrace items.length 0 (toBatches batchSize items),
             BatchOutcome.ok items.length))
    ∧ (∀ k bk dbp, (toBatches batchSize items).get? k = some bk →
        runBatch exec db ((toBatches batchSize items).take k).flatten = some dbp →
        runBatch exec dbp bk = none →
        execute_in_batches exec db items batchSize
          = (dbp, cumTrace items.length 0 ((toBatches batchSize items).take k),
             BatchOutcome.sqlError)) := by
  have hflat : (toBatches batchSize items).flatten = items :=
    toBatchesAux_flatten items.length batchSize items hb le_rfl
  refine ⟨?_, ?_, ?_⟩
  · intro batch hmem
    exact toBatchesAux_batch_le items.length batchSize items batch hmem
  · intro db' h
    rw [execute_in_batches, if_neg (by omega)]
    rw [execGo_ok exec items.length (toBatches batchSize items) db db' 0 (by rw [hflat]; exact h)]
    rw [hflat]
    simp
  · intro k bk dbp hget hpre hfail
    rw [execute_in_batches, if_neg (by omega)]
    rw [execGo_fail exec items.length k (toBatches batchSize items) db dbp 0 bk hget hpre hfail]

theorem claim_C7_witness :
    0 < 2
    ∧ (toBatches 2 [1, 2, 13, 4]).get? 1 = some [13, 4]
    ∧ runBatch exFail13 [] ((toBatches 2 [1, 2, 13, 4]).take 1).flatten = some [1, 2]
    ∧ runBatch exFail13 [1, 2] [13, 4] = none
    ∧ execute_in_batches exFail13 [] [1, 2, 13, 4] 2
        = ([1, 2], cumTrace 4 0 ((toBatches 2 [1, 2, 13, 4]).take 1), BatchOutcome.sqlError) :=
  ⟨by decide, by decide, by decide, by decide,
    (claim_C7_batches exFail13 [] [1, 2, 13, 4] 2 (by decide)).2.2 1 [13, 4] [1, 2]
      (by decide) (by decide) (by decide)⟩

/-! ## C3: dynamic memory reduction -/

theorem dmr_of_le (msgs : List ChatMsg) (limit : Nat) (thr : ℚ) (aggr : Bool)
    (h : (tokenCost msgs : ℚ) ≤ (limit : ℚ) * thr) :
    dynamic_memory_reduction msgs limit thr aggr = (0, msgs) := by
  rw [dynamic_memory_reduction, if_pos h]

theorem dmr_of_not_le (msgs : List ChatMsg) (limit : Nat) (thr : ℚ) (aggr : Bool)
    (h : ¬ ((tokenCost msgs : ℚ) ≤ (limit : ℚ) * thr)) :
    dynamic_memory_reduction msgs limit thr aggr
      = ((tokenCost msgs : Int) - (tokenCost (reduceRebuild msgs aggr) : Int),
         reduceRebuild msgs aggr) := by
  rw [dynamic_memory_reduction, if_neg h]

theorem recentPairs_suffix (msgs : List ChatMsg) (aggr : Bool) :
    ((recentPairsOf msgs).flatMap (fun p => [p.1, p.2])) <:+ reduceRebuild msgs aggr := by
  rw [reduceRebuild, recentPairsOf]
  dsimp only
  rw [List.flatMap_append, ← List.append_assoc]
  exact List.suffix_append _ _

set_option maxRecDepth 10000 in
/-- C3, counterexample to the claim as stated: `hist3` is a history of
three clean user/assistant pairs with token cost 400 > 85 = 100 × 0.85
(the claim's own "cost 400, budget 100" example shape), yet in
non-aggressive mode `reduce` returns 0 (not a positive value) and the
post-reduction cost is 400, far above 100 × 0.75 = 75: with at most 3
pairs every pair is "recent" and is retained verbatim, so nothing is
dropped.  (The claim's other example is also wrong on its own terms:
cost 95 does not satisfy 95 ≤ 100 × 0.85 = 85.) -/
theorem claim_C3_counterexample :
    tokenCost hist3 = 400
    ∧ ¬ ((tokenCost hist3 : ℚ) ≤ (100 : ℚ) * (17 / 20))
    ∧ dynamic_memory_reduction hist3 100 (17 / 20) false = (0, hist3)
    ∧ ¬ (0 < (dynamic_memory_reduction hist3 100 (17 / 20) false).1)
    ∧ ¬ ((tokenCost (dynamic_memory_reduction hist3 100 (17 / 20) false).2 : ℚ)
          ≤ (100 : ℚ) * (3 / 4)) := by
  have hc : tokenCost hist3 = 400 := by decide
  have hnle : ¬ ((tokenCost hist3 : ℚ) ≤ (100 : ℚ) * (17 / 20)) := by
    rw [hc]
    push_cast
    norm_num
  have hrr : reduceRebuild hist3 false = hist3 := by decide
  have hmain : dynamic_memory_reduction hist3 100 (17 / 20) false = (0, hist3) := by
    rw [dmr_of_not_le _ _ _ _ hnle, hrr, hc]
    norm_num
  refine ⟨hc, hnle, hmain, ?_, ?_⟩
  · rw [hmain]
    norm_num
  · rw [hmain]
    dsimp only
    rw [hc]
    push_cast
    norm_num

/-- C3, amended: whenever the history's token cost is at most
budget × threshold, `reduce` returns 0 and leaves the history
unchanged (this part of the claim is correct, though the claim's
"cost 95, budget 100, threshold 0.85" example does not satisfy it).
When the cost exceeds the threshold, `reduce` replaces the history by
the rebuilt one (system messages, a stride-sample of older pairs, and
the most recent `min 3 pairs` user/assistant pairs, which always
survive as a suffix) and returns old cost minus new cost — a value
that can be 0, with no guarantee that the post-reduction cost is
within budget × 0.75. -/
theorem claim_C3_amended (msgs : List ChatMsg) (limit : Nat) (thr : ℚ) (aggr : Bool) :
    ((tokenCost msgs : ℚ) ≤ (limit : ℚ) * thr →
      dynamic_memory_reduction msgs limit thr aggr = (0, msgs))
    ∧ (¬ ((tokenCost msgs : ℚ) ≤ (limit : ℚ) * thr) →
      (dynamic_memory_reduction msgs limit thr aggr).2 = reduceRebuild msgs aggr
      ∧ (dynamic_memory_reduction msgs limit thr aggr).1
          = (tokenCost msgs : Int) - (tokenCost (reduceRebuild msgs aggr) : Int)
      ∧ ((recentPairsOf msgs).flatMap (fun p => [p.1, p.2]))
          <:+ (dynamic_memory_reduction msgs limit thr aggr).2) := by
  constructor
  · exact dmr_of_le msgs limit thr aggr
  · intro h
    rw [dmr_of_not_le msgs limit thr aggr h]
    exact ⟨rfl, rfl, recentPairs_suffix msgs aggr⟩

theorem claim_C3_witness :
    ((tokenCost [ChatMsg.human "hi"] : ℚ) ≤ (100 : ℚ) * (17 / 20))
    ∧ dynamic_memory_reduction [ChatMsg.human "hi"] 100 (17 / 20) false
        = (0, [ChatMsg.human "hi"]) := by
  have h : (tokenCost [ChatMsg.human "hi"] : ℚ) ≤ (100 : ℚ) * (17 / 20) := by
    have h1 : tokenCost [ChatMsg.human "hi"] = 1 := by decide
    rw [h1]
    push_cast
    norm_num
  exact ⟨h, (claim_C3_amended [ChatMsg.human "hi"] 100 (17 / 20) false).1 h⟩

/-! ## C4: message pairing policy -/

theorem processMessages_eq_createOptimizedPairs :
    ∀ msgs : List ChatMsg, processMessages msgs = createOptimizedPairs msgs := by
  intro msgs
  induction msgs using processMessages.induct with
  | case1 c c' rest ih => simp [processMessages, createOptimizedPairs, ih]
  | case2 m rest h ih =>
      cases m with
      | human c =>
          cases rest with
          | nil => simp [processMessages, createOptimizedPairs, ChatMsg.content]
          | cons m2 t =>
              cases m2 with
              | ai c' => exact (h c c' t rfl rfl).elim
              | human c2 =>
                  simp [processMessages, createOptimizedPairs, ChatMsg.content, ih]
              | system c2 =>
                  simp only [processMessages, createOptimizedPairs, ChatMsg.content] at ih ⊢
                  simpa using ih
      | ai c => simp [processMessages, createOptimizedPairs, ChatMsg.content, ih]
      | system c => simp [processMessages, createOptimizedPairs, ChatMsg.content, ih]
  | case3 => rfl

/-- C4: ingestion pairs a user message with the immediately following
assistant message when contiguous; an unpaired trailing user message
and a standalone assistant message are each recorded with an empty
counterpart; `[U1, A1, U2]` materializes to `[(U1,A1), (U2,"")]`;
consecutive user messages each pair with "" (the first conjunct with
an assistant successor, the fourth without); and the
`create_optimized_memory` ingestion loop implements exactly the same
policy as `_process_messages`. -/
theorem claim_C4_pairing :
    (∀ (c c' : String) (rest : List ChatMsg),
        processMessages (ChatMsg.human c :: ChatMsg.ai c' :: rest)
          = (c, c') :: processMessages rest)
    ∧ (∀ c : String, processMessages [ChatMsg.human c] = [(c, "")])
    ∧ (∀ (c : String) (rest : List ChatMsg),
        processMessages (ChatMsg.ai c :: rest) = (c, "") :: processMessages rest)
    ∧ (∀ (c d : String) (rest : List ChatMsg),
        processMessages (ChatMsg.human c :: ChatMsg.human d :: rest)
          = (c, "") :: processMessages (ChatMsg.human d :: rest))
    ∧ processMessages [ChatMsg.human "U1", ChatMsg.ai "A1", ChatMsg.human "U2"]
        = [("U1", "A1"), ("U2", "")]
    ∧ (∀ msgs : List ChatMsg, processMessages msgs = createOptimizedPairs msgs) := by
  refine ⟨?_, ?_, ?_, ?_, ?_, processMessages_eq_createOptimizedPairs⟩
  · intro c c' rest
    simp [processMessages]
  · intro c
    simp [processMessages, ChatMsg.content]
  · intro c rest
    simp [processMessages, ChatMsg.content]
  · intro c d rest
    simp [processMessages, ChatMsg.content]
  · decide

/-! ## C5 and C10: memory snapshot cache -/

theorem cacheFind_cons_self (c : List ((String × Nat) × Nat)) (k : String × Nat) (a : Nat) :
    cacheFind ((k, a) :: c) k = some a := by
  simp [cacheFind, List.find?]

theorem cacheFind_cons_ne (c : List ((String × Nat) × Nat)) (k k' : String × Nat) (a : Nat)
    (h : k' ≠ k) : cacheFind ((k', a) :: c) k = cacheFind c k := by
  have h' : (decide (k' = k)) = false := by simp [h]
  simp [cacheFind, List.find?, h']

theorem cacheFind_clean (c : List ((String × Nat) × Nat)) (cid : String) (k : Nat)
    (h : ∀ e ∈ c, e.1.1 ≠ cid) : cacheFind c (cid, k) = none := by
  rw [cacheFind, Option.map_eq_none', List.find?_eq_none]
  intro e he
  simp only [decide_eq_true_eq]
  intro heq
  exact h e he (by rw [heq])

theorem prevCounts_clean (c : List ((String × Nat) × Nat)) (cid : String) (m : Nat)
    (h : ∀ e ∈ c, e.1.1 ≠ cid) : prevCounts c cid m = [] := by
  rw [prevCounts]
  rw [List.filter_eq_nil.2]
  · rfl
  · intro k hk
    simp only [List.mem_map] at hk
    obtain ⟨e, he, rfl⟩ := hk
    simp [h e he]

theorem getD_concat (l : List β) (x d : β) : (l ++ [x]).getD l.length d = x := by
  induction l with
  | nil => rfl
  | cons a t ih => simpa using ih

theorem set_concat (l : List β) (x y : β) : (l ++ [x]).set l.length y = l ++ [y] := by
  induction l with
  | nil => rfl
  | cons a t ih => simpa using ih

/-- First materialization of a conversation: with a clean cache, a
fresh memory object is allocated at the end of the heap, every
message is run through the pairing routine, and the result is
recorded under `(conversation_id, message_count)`. -/
theorem gctbm_first_call (st0 : MemStore) (cid : String) (msgs : List ChatMsg)
    (hcid : cid ≠ "") (hmsgs : msgs ≠ []) (hclean : ∀ e ∈ st0.cache, e.1.1 ≠ cid) :
    get_conv_token_buffer_memory st0 msgs (some cid)
      = (st0.heap.length,
         ⟨st0.heap ++ [processMessages msgs],
          ((cid, msgs.length), st0.heap.length) :: st0.cache⟩,
         msgs) := by
  rw [get_conv_token_buffer_memory]
  rw [if_neg (by simp [hcid, hmsgs])]
  dsimp only
  rw [cacheFind_clean st0.cache cid msgs.length hclean]
  rw [prevCounts_clean st0.cache cid msgs.length hclean]
  simp [createMemoryFromScratch]

/-- Second materialization of the same conversation at a larger
message count: the cached object at the smaller count is found, only
the delta messages are run through the pairing routine, the cached
object is extended in place (same heap address), and the same address
is re-registered under the new count. -/
theorem gctbm_second_call (heap0 : List (List (String × String)))
    (cache0 : List ((String × Nat) × Nat)) (cid : String)
    (mem1 : List (String × String)) (msgs : List ChatMsg) (n : Nat)
    (hcid : cid ≠ "") (hclean : ∀ e ∈ cache0, e.1.1 ≠ cid)
    (hn : 0 < n) (hlt : n < msgs.length) :
    get_conv_token_buffer_memory
        ⟨heap0 ++ [mem1], ((cid, n), heap0.length) :: cache0⟩ msgs (some cid)
      = (heap0.length,
         ⟨heap0 ++ [mem1 ++ processMessages (msgs.drop n)],
          ((cid, msgs.length), heap0.length) :: ((cid, n), heap0.length) :: cache0⟩,
         msgs.drop n) := by
  have hne : msgs ≠ [] := by
    intro h
    rw [h] at hlt
    simp at hlt
  rw [get_conv_token_buffer_memory]
  rw [if_neg (by simp [hcid, hne])]
  dsimp only
  have hfind : cacheFind (((cid, n), heap0.length) :: cache0) (cid, msgs.length) = none := by
    rw [cacheFind_cons_ne cache0 (cid, msgs.length) (cid, n) heap0.length
      (by intro h; injection h with h1 h2; omega)]
    exact cacheFind_clean cache0 cid msgs.length hclean
  rw [hfind]
  have hprev : prevCounts (((cid, n), heap0.length) :: cache0) cid msgs.length = [n] := by
    have h0 : prevCounts cache0 cid msgs.length = [] :=
      prevCounts_clean cache0 cid msgs.length hclean
    rw [prevCounts] at h0 ⊢
    simp only [List.map_cons, List.filter_cons]
    rw [if_pos (by simp [hlt])]
    simp [h0]
  rw [hprev]
  simp only [List.max?, List.foldl_nil]
  rw [cacheFind_cons_self]
  simp only [Option.getD_some]
  rw [getD_concat, set_concat]

/-- C5: materializing a conversation at count `n` and then at a larger
count `m` runs only the `m - n` delta messages through the pairing
routine (the third component of the result is exactly the list of
messages handed to `_process_messages`), and the result is recorded
as a snapshot at count `m`. -/
theorem claim_C5_incremental (st0 : MemStore) (cid : String) (msgs1 msgs2 : List ChatMsg)
    (hcid : cid ≠ "") (hclean : ∀ e ∈ st0.cache, e.1.1 ≠ cid)
    (h1 : msgs1 ≠ []) (hlt : msgs1.length < msgs2.length) :
    (get_conv_token_buffer_memory
        (get_conv_token_buffer_memory st0 msgs1 (some cid)).2.1 msgs2 (some cid)).2.2
      = msgs2.drop msgs1.length
    ∧ (get_conv_token_buffer_memory
        (get_conv_token_buffer_memory st0 msgs1 (some cid)).2.1 msgs2 (some cid)).2.2.length
      = msgs2.length - msgs1.length
    ∧ cacheFind
        (get_conv_token_buffer_memory
          (get_conv_token_buffer_memory st0 msgs1 (some cid)).2.1 msgs2 (some cid)).2.1.cache
        (cid, msgs2.length)
      = some (get_conv_token_buffer_memory
          (get_conv_token_buffer_memory st0 msgs1 (some cid)).2.1 msgs2 (some cid)).1 := by
  have hfirst := gctbm_first_call st0 cid msgs1 hcid h1 hclean
  have hn : 0 < msgs1.length := List.length_pos.2 h1
  have hsecond := gctbm_second_call st0.heap st0.cache cid (processMessages msgs1) msgs2
      msgs1.length hcid hclean hn hlt
  rw [hfirst]
  dsimp only
  rw [hsecond]
  refine ⟨rfl, by simp [List.length_drop], ?_⟩
  dsimp only
  exact cacheFind_cons_self _ _ _

theorem claim_C5_witness :
    (get_conv_token_buffer_memory
        (get_conv_token_buffer_memory ⟨[], []⟩ [ChatMsg.human "u1"] (some "c")).2.1
        [ChatMsg.human "u1", ChatMsg.ai "a1", ChatMsg.human "u2"] (some "c")).2.2
      = [ChatMsg.ai "a1", ChatMsg.human "u2"] := by
  have h := (claim_C5_incremental ⟨[], []⟩ "c" [ChatMsg.human "u1"]
      [ChatMsg.human "u1", ChatMsg.ai "a1", ChatMsg.human "u2"]
      (by decide) (by simp) (by decide) (by decide)).1
  simpa using h

/-- C10, amended: materializing at a larger count mutates, in place,
the snapshot object registered at the largest smaller count for the
conversation (heap address unchanged, content extended with the
processed delta) and re-registers that same object under the new
count; a later exact-count cache hit at that smaller count therefore
returns the extended history.  (Snapshots at other smaller counts
that are separate objects are not touched — see the
counterexample.) -/
theorem claim_C10_amended (st0 : MemStore) (cid : String) (msgs1 msgs2 : List ChatMsg)
    (hcid : cid ≠ "") (hclean : ∀ e ∈ st0.cache, e.1.1 ≠ cid)
    (h1 : msgs1 ≠ []) (hlt : msgs1.length < msgs2.length) :
    cacheFind (get_conv_token_buffer_memory
        (get_conv_token_buffer_memory st0 msgs1 (some cid)).2.1 msgs2 (some cid)).2.1.cache
        (cid, msgs1.length)
      = some (get_conv_token_buffer_memory st0 msgs1 (some cid)).1
    ∧ (get_conv_token_buffer_memory
        (get_conv_token_buffer_memory st0 msgs1 (some cid)).2.1 msgs2 (some cid)).1
      = (get_conv_token_buffer_memory st0 msgs1 (some cid)).1
    ∧ (get_conv_token_buffer_memory
        (get_conv_token_buffer_memory st0 msgs1 (some cid)).2.1 msgs2 (some cid)).2.1.heap.getD
        (get_conv_token_buffer_memory st0 msgs1 (some cid)).1 []
      = processMessages msgs1 ++ processMessages (msgs2.drop msgs1.length)
    ∧ (∀ msgs3 : List ChatMsg, msgs3 ≠ [] → msgs3.length = msgs1.length →
        get_conv_token_buffer_memory
            (get_conv_token_buffer_memory
              (get_conv_token_buffer_memory st0 msgs1 (some cid)).2.1 msgs2 (some cid)).2.1
            msgs3 (some cid)
          = ((get_conv_token_buffer_memory st0 msgs1 (some cid)).1,
             (get_conv_token_buffer_memory
               (get_conv_token_buffer_memory st0 msgs1 (some cid)).2.1 msgs2 (some cid)).2.1,
             [])) := by
  have hfirst := gctbm_first_call st0 cid msgs1 hcid h1 hclean
  have hn : 0 < msgs1.length := List.length_pos.2 h1
  have hsecond := gctbm_second_call st0.heap st0.cache cid (processMessages msgs1) msgs2
      msgs1.length hcid hclean hn hlt
  rw [hfirst]
  dsimp only
  rw [hsecond]
  dsimp only
  have hkeys : ((cid, msgs2.length) : String × Nat) ≠ (cid, msgs1.length) := by
    intro h
    injection h with h1' h2'
    omega
  refine ⟨?_, rfl, ?_, ?_⟩
  · rw [cacheFind_cons_ne _ _ _ _ hkeys]
    exact cacheFind_cons_self _ _ _
  · exact getD_concat _ _ _
  · intro msgs3 hne3 hlen3
    rw [get_conv_token_buffer_memory]
    rw [if_neg (by simp [hcid, hne3])]
    dsimp only
    rw [hlen3]
    rw [cacheFind_cons_ne _ _ _ _ hkeys, cacheFind_cons_self]

theorem claim_C10_witness :
    cacheFind (get_conv_token_buffer_memory
        (get_conv_token_buffer_memory ⟨[], []⟩ [ChatMsg.human "u1"] (some "c")).2.1
        [ChatMsg.human "u1", ChatMsg.ai "a1", ChatMsg.human "u2"] (some "c")).2.1.cache
        ("c", 1)
      = some (get_conv_token_buffer_memory ⟨[], []⟩ [ChatMsg.human "u1"] (some "c")).1 :=
  (claim_C10_amended ⟨[], []⟩ "c" [ChatMsg.human "u1"]
    [ChatMsg.human "u1", ChatMsg.ai "a1", ChatMsg.human "u2"]
    (by decide) (by simp) (by decide) (by decide)).1

/-- C10, counterexample to the claim as stated ("mutates ... the
snapshot object cached at every smaller count"): materialize
conversation "c" at counts 2, then 1, then 4 (from an empty cache).
The count-1 snapshot is a distinct object from the count-2 one, and
the count-4 materialization extends only the object registered at the
largest smaller count (2).  A later exact-count hit at the smaller
count 1 is a pure cache hit (state unchanged, nothing reprocessed)
whose history is still `[("x", "")]` — it does not contain the
extended message set, which does reach the count-2/count-4 object. -/
theorem claim_C10_counterexample :
    (get_conv_token_buffer_memory stFour [ChatMsg.human "x"] (some "c")).2.2 = []
    ∧ (get_conv_token_buffer_memory stFour [ChatMsg.human "x"] (some "c")).2.1 = stFour
    ∧ stFour.heap.getD
        (get_conv_token_buffer_memory stFour [ChatMsg.human "x"] (some "c")).1 []
      = [("x", "")]
    ∧ ("u3", "a3") ∈ stFour.heap.getD 0 []
    ∧ ("u3", "a3") ∉ stFour.heap.getD
        (get_conv_token_buffer_memory stFour [ChatMsg.human "x"] (some "c")).1 [] := by
  refine ⟨?_, ?_, ?_, ?_, ?_⟩ <;> decide

/-! ## C8: batched history persistence -/

/-- C8: evaluation of `batch_save_context` at the failing input — two
pairs persisted for conversation "c" with both loop iterations inside
the same clock second (`int(time.time()) = 1000`).  Both pipelined
writes go to the single key `chat_history:c:1000` (the second
overwrites the first), and the stored value is only the AI message
`"a2"`, not its (user, assistant) pair: after persisting 2 pairs, 1
cache key exists rather than 2, holding neither pair. -/
theorem claim_C8_eval :
    (batch_save_context [] [("u1", "a1"), ("u2", "a2")] [] "c" (fun _ => 1000)).2
      = [("chat_history:c:1000", strBytes "a2"), ("chat_history:c:1000", strBytes "a1")]
    ∧ (((batch_save_context [] [("u1", "a1"), ("u2", "a2")] [] "c" (fun _ => 1000)).2.map
        (fun e => e.1)).dedup).length = 1
    ∧ storeGet (batch_save_context [] [("u1", "a1"), ("u2", "a2")] [] "c" (fun _ => 1000)).2
        "chat_history:c:1000" = some (strBytes "a2") := by
  refine ⟨?_, ?_, ?_⟩ <;> decide
